import Mathlib

/-!
Verification of `src/templates/assets/javascripts/components/content/link/index.ts`
(the "instant preview" link component).

The TypeScript source is shallowly embedded:
* DOM elements are records of the attributes the component reads
  (tag name, class list, text content, inner markup, string attributes);
* the RxJS pipelines are embedded as list transformers (a stream is the
  list of its emissions) and, for the fetch/mount pipeline, as an explicit
  step function over an event trace;
* `new URL(value, base).toString()` is an abstract resolver argument;
* the template-string interpolation of the numeric sequence counter is
  modelled by a decimal-representation function defined below.
-/

namespace LinkPreview

/-! ### DOM element model for `extract` / `nextElements` -/

/-- The slice of a DOM element observed by `extract`/`nextElements`:
tag name, class list, text content and inner markup. -/
structure Elem where
  tag : String
  classes : List String
  textContent : String
  innerHTML : String
  deriving DecidableEq, Repr

/-- `el instanceof HTMLHeadingElement` — the tag is one of `h1`..`h6`. -/
def Elem.isHeading (el : Elem) : Bool :=
  el.tag == "h1" || el.tag == "h2" || el.tag == "h3" ||
  el.tag == "h4" || el.tag == "h5" || el.tag == "h6"

/-- `el instanceof HTMLAnchorElement` — the tag is `a`. -/
def Elem.isAnchor (el : Elem) : Bool :=
  el.tag == "a"

/-- Default predicate of `nextElements`:
`!(el instanceof HTMLHeadingElement || el.classList.contains("doc"))`. -/
def defaultPred (el : Elem) : Bool :=
  !(el.isHeading || el.classes.contains "doc")

/-- Predicate passed to `nextElements` in the `.doc` customization branch:
`el.classList.contains("doc-contents") || el.classList.contains("doc-signature")`. -/
def docPred (el : Elem) : Bool :=
  el.classes.contains "doc-contents" || el.classes.contains "doc-signature"

/-- `nextElements(baseElement, predicate)`: walk `nextElementSibling` while the
predicate holds, collecting the visited elements.  `siblings` is the list of
following siblings of the base element, in document order. -/
def nextElements (siblings : List Elem) (p : Elem → Bool) : List Elem :=
  match siblings with
  | [] => []
  | el :: rest => if p el then el :: nextElements rest p else []

/-- The context of an extraction target inside the fetched document:
the target element, its following siblings, its parent element
(`parentElement` may be null) and the parent's following siblings. -/
structure ExtractCtx where
  headline : Elem
  siblings : List Elem
  parent : Option Elem
  parentSiblings : List Elem
  deriving DecidableEq, Repr

/-- The `h3` node synthesized at the start of `extract`:
`document.createElement("h3")` with the headline's `innerHTML` copied in
(its text content derives from that markup). -/
def mkH3 (headline : Elem) : Elem :=
  { tag := "h3", classes := [], textContent := headline.textContent,
    innerHTML := headline.innerHTML }

/-- `extract(headline)`: synthesized `h3`, the headline's following siblings up
to the first heading/`doc` element, then either (bare empty `<a>`) the parent's
siblings under the default predicate, or (parent has class `doc`) the parent's
siblings under the `doc-contents`/`doc-signature` predicate. -/
def extract (ctx : ExtractCtx) : List Elem :=
  let newHeading := mkH3 ctx.headline
  let els := newHeading :: nextElements ctx.siblings defaultPred
  if ctx.headline.isAnchor && (ctx.headline.textContent == "") then
    els ++ nextElements ctx.parentSiblings defaultPred
  else if (ctx.parent.map fun p => p.classes.contains "doc").getD false then
    els ++ nextElements ctx.parentSiblings docPred
  else
    els

/-! ### Activation gate -/

/-- `map(([focus, hover, enabled]) => (focus || hover) && enabled)`. -/
def gateFn : Bool × Bool × Bool → Bool
  | (focus, hover, enabled) => (focus || hover) && enabled

/-- Helper for `distinctUntilChanged`: drop values equal to the previous one. -/
def distinctFrom (prev : Bool) : List Bool → List Bool
  | [] => []
  | x :: xs => if x == prev then distinctFrom prev xs else x :: distinctFrom x xs

/-- `distinctUntilChanged()` on a boolean stream: the first emission is kept,
later emissions are kept only when they differ from the previous kept one. -/
def distinctUntilChanged (l : List Bool) : List Bool :=
  match l with
  | [] => []
  | x :: xs => x :: distinctFrom x xs

/-- `active$`: the combined focus/hover/enabled stream mapped through `gateFn`,
deduplicated, and filtered to the active (`true`) values. -/
def activeEvents (ts : List (Bool × Bool × Bool)) : List Bool :=
  (distinctUntilChanged (ts.map gateFn)).filter (fun active => active)

/-- Number of rising edges of a boolean stream (the previous value before the
stream starts being "not emitted", modelled as `false` so that an initial
`true` counts). -/
def risingFrom (prev : Bool) : List Bool → Nat
  | [] => 0
  | x :: xs => (if x && !prev then 1 else 0) + risingFrom x xs

/-- Rising-edge count of a boolean stream. -/
def risingCount (l : List Bool) : Nat :=
  risingFrom false l

/-! ### Preference signal (`instantPreviewEnabled$`) -/

/-- `instantPreviewEnabled$`: when no toggle form is present the stream is
`of(true)`; otherwise the `change` events are mapped to `value === "on"`,
the persisted value (default `true`) is prepended by `startWith`, and
consecutive duplicates are removed. -/
def instantPreviewEnabled (form : Option Unit) (stored : Option Bool)
    (changes : List String) : List Bool :=
  match form with
  | none => [true]
  | some _ => distinctUntilChanged ((stored.getD true) :: changes.map (fun v => v == "on"))

/-- Host-page state touched by the `instantPreviewEnabled$` subscriber:
the persisted setting, the body's `data-md-instant-preview`-style attribute,
and the checked state of the two optional toggle inputs (`none` = the input
is absent from the page). -/
structure HostState where
  storage : Option Bool
  bodyInstantPreview : Option String
  inputOn : Option Bool
  inputOff : Option Bool
  deriving DecidableEq, Repr

/-- Body of `instantPreviewEnabled$.subscribe`: persist the value, mirror it on
`document.body.dataset.instantPreview`, and check the input matching the new
state when such an input exists. -/
def applyPreference (st : HostState) (enabled : Bool) : HostState :=
  let onoff := if enabled then "on" else "off"
  let st1 : HostState :=
    { st with storage := some enabled, bodyInstantPreview := some onoff }
  if enabled then
    { st1 with inputOn := st1.inputOn.map fun _ => true }
  else
    { st1 with inputOff := st1.inputOff.map fun _ => true }

/-- The subscription applied to every emission of the preference stream. -/
def subscribeRun (st : HostState) (emissions : List Bool) : HostState :=
  emissions.foldl applyPreference st

/-! ### URL resolver (`resolve`) -/

/-- An element of the fetched document as seen by `resolve`: its attribute
list (`getAttribute`/`setAttribute`). -/
structure RElem where
  attrs : List (String × String)
  deriving DecidableEq, Repr

/-- `el.getAttribute(key)` — first binding of the key, `null` when absent. -/
def getAttr (el : RElem) (key : String) : Option String :=
  (el.attrs.find? fun kv => kv.1 == key).map fun kv => kv.2

/-- `el.hasAttribute(key)`-style presence test, used for selector matching. -/
def hasAttr (el : RElem) (key : String) : Bool :=
  el.attrs.any fun kv => kv.1 == key

/-- `el.setAttribute(key, value)` / reflected property assignment: every
binding of the key is updated in place. -/
def setAttr (el : RElem) (key value : String) : RElem :=
  { attrs := el.attrs.map fun kv => if kv.1 == key then (kv.1, value) else kv }

/-- First two characters are `//`. -/
def startsSlashSlash : List Char → Bool
  | '/' :: '/' :: _ => true
  | _ => false

/-- ASCII letter, case-insensitively (`[a-z]` with the `i` flag). -/
def isAsciiLetter (c : Char) : Bool :=
  ('a' ≤ c && c ≤ 'z') || ('A' ≤ c && c ≤ 'Z')

/-- A nonempty letter run followed by `://`. -/
def schemeSlashSlash (cs : List Char) : Bool :=
  let letters := cs.takeWhile isAsciiLetter
  !letters.isEmpty && startsSlashSlash ((cs.dropWhile isAsciiLetter).drop 1) &&
    ((cs.dropWhile isAsciiLetter).head? == some ':')

/-- The test `/^(?:[a-z]+:)?\/\//i.test(value)`: the value starts with `//`,
optionally preceded by a scheme `letters:`. -/
def isAbsoluteUrl (s : String) : Bool :=
  startsSlashSlash s.toList || schemeSlashSlash s.toList

/-- The inner `for (const key of ["href", "src"])` loop of `resolve`: rewrite
the first key whose value is nonempty and not already absolute, then `break`.
`res` models `value => new URL(value, base).toString()`. -/
def rewriteKeys (res : String → String) : List String → RElem → RElem
  | [], el => el
  | key :: keys, el =>
    match getAttr el key with
    | some value =>
      if value != "" && !isAbsoluteUrl value then setAttr el key (res value)
      else rewriteKeys res keys el
    | none => rewriteKeys res keys el

/-- Selector `[name^=__], [for]` of the identifier pass. -/
def idSelector (el : RElem) : Bool :=
  (match getAttr el "name" with
   | some v => v.startsWith "__"
   | none => false) || hasAttr el "for"

/-- Decimal representation of a natural number, modelling the JavaScript
template-string interpolation of the numeric sequence counter. -/
def digitChar (d : Nat) : Char :=
  match d with
  | 0 => '0' | 1 => '1' | 2 => '2' | 3 => '3' | 4 => '4'
  | 5 => '5' | 6 => '6' | 7 => '7' | 8 => '8' | 9 => '9'
  | _ => '*'

/-- Decimal string of a natural number (most significant digit first). -/
def decimal (n : Nat) : String :=
  match n with
  | 0 => "0"
  | _ => ⟨((Nat.digits 10 n).map digitChar).reverse⟩

/-- The suffix appended by the identifier pass of `resolve`:
the template string `$preview_<sequence>`. -/
def previewSuffix (sequence : Nat) : String :=
  "$preview_" ++ decimal sequence

/-- The inner `for (const key of ["id", "for", "name"])` loop of the
identifier pass: every key present with a nonempty value gets the sequence
suffix appended (no `break`). -/
def suffixKeys (sequence : Nat) : List String → RElem → RElem
  | [], el => el
  | key :: keys, el =>
    match getAttr el key with
    | some value =>
      if value != "" then
        suffixKeys sequence keys (setAttr el key (value ++ previewSuffix sequence))
      else suffixKeys sequence keys el
    | none => suffixKeys sequence keys el

/-- `resolve(document, base)`: rewrite relative `href`/`src` attributes of the
elements matching `[href], [src]`, suffix `id`/`for`/`name` of the elements
matching `[name^=__], [for]` with the current sequence value, then increment
the global sequence counter.  The document is the list of its elements; the
counter is passed and returned explicitly. -/
def resolve (res : String → String) (doc : List RElem) (sequence : Nat) :
    List RElem × Nat :=
  let doc1 := doc.map fun el =>
    if hasAttr el "href" || hasAttr el "src" then rewriteKeys res ["href", "src"] el
    else el
  let doc2 := doc1.map fun el =>
    if idSelector el then suffixKeys sequence ["id", "for", "name"] el
    else el
  (doc2, sequence + 1)

/-- N successive resolutions, threading the sequence counter. -/
def resolveSeq (res : String → String) (docs : List (List RElem)) (sequence : Nat) :
    List (List RElem) × Nat :=
  match docs with
  | [] => ([], sequence)
  | d :: ds =>
    let (d1, s1) := resolve res d sequence
    let (ds1, s2) := resolveSeq res ds s1
    (d1 :: ds1, s2)

/-! ### Preview pipeline (`mountLink`)

The fetch/extract/mount chain

`zip([sitemap$, active$]).pipe(switchMap..., switchMap..., switchMap...)`
followed by `.pipe(switchMap(els => mount observable))`

is embedded as a step function over an explicit event trace.  Events are the
gate's activations (`zip` buffers them), gate deactivations (filtered away by
`filter(active => active)` before they reach the pipeline), sitemap emissions
(`zip` buffers them too), and fetch completions.  `switchMap` cancellation is
modelled by tagging each fetch with a fresh run identifier: only the fetch
whose identifier is still pending may act on completion — a superseded run's
completion is an ignored (unsubscribed) callback.  A fetch completion carries
the target lookup's result (step 4 of the pipeline) as an `Option ExtractCtx`.
-/

/-- The fields of the WHATWG `URL` object used by `mountLink`. -/
structure Url where
  origin : String
  pathname : String
  search : String
  hash : String
  deriving DecidableEq, Repr

/-- Serialization of the URL model (`` `${url}` ``). -/
def Url.toStr (u : Url) : String :=
  u.origin ++ u.pathname ++ u.search ++ u.hash

/-- `url.search = url.hash = ""` on a fresh copy of the link's URL. -/
def Url.clearSearchHash (u : Url) : Url :=
  { u with search := "", hash := "" }

/-- An input event of the pipeline for one link. -/
inductive PEvent where
  | activate
  | deactivate
  | smEmit (sitemap : List String)
  | fetchDone (run : Nat) (target : Option ExtractCtx)
  deriving DecidableEq, Repr

/-- An observable side effect of the pipeline. -/
inductive PAction where
  | fetchStart (run : Nat)
  | mountNode (run : Nat)
  | unmountNode (run : Nat)
  deriving DecidableEq, Repr

/-- State of one link's pipeline: the `zip` buffers, the pending fetch (with
its run identifier), the next fresh run identifier, and the currently mounted
overlay (tagged by the run that produced it). -/
structure PState where
  smQueue : List (List String)
  actQueue : Nat
  pending : Option Nat
  nextRun : Nat
  mounted : Option Nat
  deriving DecidableEq, Repr

/-- Initial pipeline state. -/
def initP : PState :=
  { smQueue := [], actQueue := 0, pending := none, nextRun := 0, mounted := none }

/-- A `zip` pair fired: normalize the link's URL by clearing query and
fragment; on a sitemap hit the url flows into the fetch `switchMap`, which
cancels the pending fetch and starts a fresh one; on a miss the inner
observable is `EMPTY` and nothing further happens. -/
def firePair (link : Url) (sitemap : List String) (st : PState) :
    PState × List PAction :=
  if sitemap.contains (Url.toStr (Url.clearSearchHash link)) then
    ({ st with pending := some st.nextRun, nextRun := st.nextRun + 1 },
     [PAction.fetchStart st.nextRun])
  else
    (st, [])

/-- One step of the pipeline on one event. -/
def stepP (link : Url) (st : PState) (e : PEvent) : PState × List PAction :=
  match e with
  | PEvent.activate =>
    match st.smQueue with
    | s :: rest => firePair link s { st with smQueue := rest }
    | [] => ({ st with actQueue := st.actQueue + 1 }, [])
  | PEvent.deactivate => (st, [])
  | PEvent.smEmit s =>
    match st.actQueue with
    | Nat.succ k => firePair link s { st with actQueue := k }
    | 0 => ({ st with smQueue := st.smQueue ++ [s] }, [])
  | PEvent.fetchDone run target =>
    if st.pending == some run then
      let st1 := { st with pending := none }
      match target with
      | none => (st1, [])
      | some ctx =>
        let els := extract ctx
        if els.length == 1 then (st1, [])
        else
          match st1.mounted with
          | some m =>
            ({ st1 with mounted := some run },
             [PAction.unmountNode m, PAction.mountNode run])
          | none => ({ st1 with mounted := some run }, [PAction.mountNode run])
    else (st, [])

/-- Run the pipeline over an event trace, accumulating the actions. -/
def runP (link : Url) (st : PState) : List PEvent → PState × List PAction
  | [] => (st, [])
  | e :: es =>
    ((runP link (stepP link st e).1 es).1,
     (stepP link st e).2 ++ (runP link (stepP link st e).1 es).2)

/-- Replay an action list against a "currently mounted overlay" cell:
`none` when the actions are ill-formed (mounting over a live overlay,
or unmounting a node that is not the live one). -/
def applyActs (cur : Option Nat) : List PAction → Option (Option Nat)
  | [] => some cur
  | PAction.fetchStart _ :: rest => applyActs cur rest
  | PAction.mountNode r :: rest =>
    match cur with
    | none => applyActs (some r) rest
    | some _ => none
  | PAction.unmountNode r :: rest =>
    match cur with
    | some m => if m == r then applyActs none rest else none
    | none => none

/-! ### Auxiliary notions used to state the theorems -/

/-- Last value of a boolean stream given the value preceding it
(the current value of the raw stream). -/
def lastVal (prev : Bool) : List Bool → Bool
  | [] => prev
  | x :: xs => lastVal x xs

/-- A plain paragraph: neither a heading nor a `doc`-classed element, and
neither a `doc-contents` nor a `doc-signature` block. -/
def pEl : Elem :=
  { tag := "p", classes := [], textContent := "x", innerHTML := "x" }

/-- A `doc-contents` block. -/
def contentsEl : Elem :=
  { tag := "div", classes := ["doc-contents"], textContent := "c", innerHTML := "c" }

/-- A level-2 heading. -/
def h2El : Elem :=
  { tag := "h2", classes := [], textContent := "T", innerHTML := "T" }

/-- A parent carrying the `doc` content-boundary marker class. -/
def docParent : Elem :=
  { tag := "div", classes := ["doc"], textContent := "", innerHTML := "" }

/-- A bare anchor with empty text content. -/
def aEl : Elem :=
  { tag := "a", classes := [], textContent := "", innerHTML := "" }

/-- A heading target whose `doc` parent is followed by a plain paragraph and
then a `doc-contents` block. -/
def ctxC2 : ExtractCtx :=
  { headline := h2El, siblings := [], parent := some docParent,
    parentSiblings := [pEl, contentsEl] }

/-- A bare empty anchor target whose `doc` parent is followed by a plain
paragraph and then a `doc-contents` block. -/
def ctxC9 : ExtractCtx :=
  { headline := aEl, siblings := [], parent := some docParent,
    parentSiblings := [pEl, contentsEl] }

/-- A concrete URL resolver modelling `v => new URL(v, base).toString()`
for the base `https://example.com/`. -/
def cres (v : String) : String :=
  "https://example.com/" ++ v

/-- An element carrying both a relative `href` and a relative `src`. -/
def elC3 : RElem :=
  { attrs := [("href", "a"), ("src", "b")] }

/-- A concrete internal link. -/
def linkC1 : Url :=
  { origin := "https://h", pathname := "/p", search := "", hash := "" }

/-- A located target that extracts to two elements (heading plus paragraph). -/
def ctxC1 : ExtractCtx :=
  { headline := h2El, siblings := [pEl],
    parent := some { tag := "article", classes := [], textContent := "", innerHTML := "" },
    parentSiblings := [] }

/-- The event trace of the deactivation counterexample: the sitemap arrives,
the link activates (starting the fetch for run 0), the link deactivates while
the fetch is pending, and then the fetch completes. -/
def traceC1 : List PEvent :=
  [PEvent.smEmit ["https://h/p"], PEvent.activate, PEvent.deactivate,
   PEvent.fetchDone 0 (some ctxC1)]

/-- A host page with both toggle inputs present and unchecked, nothing
persisted and no body attribute yet. -/
def hostW : HostState :=
  { storage := none, bodyInstantPreview := none,
    inputOn := some false, inputOff := some false }

/-- A heading target immediately followed by another heading, outside any
`doc` block. -/
def ctxC7 : ExtractCtx :=
  { headline := h2El, siblings := [h2El],
    parent := some { tag := "article", classes := [], textContent := "", innerHTML := "" },
    parentSiblings := [] }

/-- A pipeline state with a pending fetch for run 3. -/
def stWit : PState :=
  { smQueue := [], actQueue := 0, pending := some 3, nextRun := 4, mounted := none }

/-! ## Theorems -/

/-- Appending two equal values to a boolean stream deduplicates to appending
one of them. -/
theorem distinctFrom_append_dup (x : Bool) (l : List Bool) :
    ∀ prev : Bool, distinctFrom prev (l ++ [x, x]) = distinctFrom prev (l ++ [x]) := by
  induction l with
  | nil => intro prev; cases x <;> cases prev <;> simp [distinctFrom]
  | cons y l ih => intro prev; cases y <;> cases prev <;> simp [distinctFrom, ih]

/-- The active (`true`) emissions remaining after deduplication are counted by
the rising edges of the raw stream. -/
theorem filter_distinctFrom_length (l : List Bool) :
    ∀ prev : Bool,
      ((distinctFrom prev l).filter (fun active => active)).length = risingFrom prev l := by
  induction l with
  | nil => intro prev; simp [distinctFrom, risingFrom]
  | cons x l ih =>
    intro prev
    cases x <;> cases prev <;> simp [distinctFrom, risingFrom, ih] <;> omega

/-- Top-level version of `filter_distinctFrom_length`. -/
theorem filter_distinctUntilChanged_length (l : List Bool) :
    ((distinctUntilChanged l).filter (fun active => active)).length = risingCount l := by
  cases l with
  | nil => simp [distinctUntilChanged, risingCount, risingFrom]
  | cons x xs =>
    cases x <;>
      simp [distinctUntilChanged, risingCount, risingFrom, filter_distinctFrom_length] <;>
      omega

/-- Effect of one more emission on a deduplicated stream: nothing when it
equals the current value, one more emission otherwise. -/
theorem distinctFrom_append_last (x : Bool) (l : List Bool) :
    ∀ prev : Bool,
      distinctFrom prev (l ++ [x]) =
        distinctFrom prev l ++ (if x == lastVal prev l then [] else [x]) := by
  induction l with
  | nil => intro prev; cases x <;> cases prev <;> simp [distinctFrom, lastVal]
  | cons y l ih => intro prev; cases y <;> cases prev <;> simp [distinctFrom, lastVal, ih]

/-- C5: the activation gate maps each focus/hover/enabled triple to
`(focus OR hover) AND enabled`; every event it forwards downstream is an
activation (`true`), the number of forwarded events equals the number of
transitions of the combined value into the true state, and a consecutive
duplicate of the combined value produces no additional event. -/
theorem c5_activation_gate (ts ws : List (Bool × Bool × Bool))
    (t u : Bool × Bool × Bool) (focus hover enabled : Bool) :
    gateFn (focus, hover, enabled) = ((focus || hover) && enabled)
    ∧ (∀ b ∈ activeEvents ts, b = true)
    ∧ (activeEvents ts).length = risingCount (ts.map gateFn)
    ∧ (gateFn t = gateFn u → activeEvents (ws ++ [t, u]) = activeEvents (ws ++ [t])) := by
  refine ⟨rfl, ?_, ?_, ?_⟩
  · intro b hb
    have h := List.mem_filter.mp hb
    simpa using h.2
  · exact filter_distinctUntilChanged_length (ts.map gateFn)
  · intro h
    unfold activeEvents
    have hm : (ws ++ [t, u]).map gateFn = (ws.map gateFn) ++ [gateFn t, gateFn t] := by
      simp [h]
    have hm2 : (ws ++ [t]).map gateFn = (ws.map gateFn) ++ [gateFn t] := by simp
    rw [hm, hm2]
    cases hws : ws.map gateFn with
    | nil => cases gateFn t <;> simp [distinctUntilChanged, distinctFrom]
    | cons y l => simp [distinctUntilChanged, distinctFrom_append_dup]

/-- Witness for C5 at concrete inputs. -/
theorem c5_activation_gate_witness :
    gateFn (true, false, true) = ((true || false) && true)
    ∧ (∀ b ∈ activeEvents [(false, false, true)], b = true)
    ∧ (activeEvents [(false, false, true)]).length
        = risingCount ([(false, false, true)].map gateFn)
    ∧ activeEvents ([] ++ [((false, true, true) : Bool × Bool × Bool), (true, false, true)])
        = activeEvents ([] ++ [((false, true, true) : Bool × Bool × Bool)]) := by
  have h := c5_activation_gate [(false, false, true)] []
    (false, true, true) (true, false, true) true false true
  exact ⟨h.1, h.2.1, h.2.2.1, h.2.2.2 (by decide)⟩

/-- C6: the membership check of a pipeline run operates on the link's URL
with query string and fragment cleared; when the sitemap does not contain
that normalized URL the run aborts with no side effect at all — in
particular no fetch is started and nothing is mounted. -/
theorem c6_membership_abort (link : Url) (sitemap : List String) (st : PState)
    (h : sitemap.contains (Url.toStr { link with search := "", hash := "" }) = false) :
    Url.clearSearchHash link = { link with search := "", hash := "" }
    ∧ firePair link sitemap st = (st, []) := by
  refine ⟨rfl, ?_⟩
  have h2 : sitemap.contains (Url.toStr (Url.clearSearchHash link)) = false := h
  simp only [firePair, h2, Bool.false_eq_true, if_false]

/-- Witness for C6: the empty sitemap contains no URL. -/
theorem c6_membership_abort_witness :
    Url.clearSearchHash linkC1 = { linkC1 with search := "", hash := "" }
    ∧ firePair linkC1 [] initP = (initP, []) :=
  c6_membership_abort linkC1 [] initP (by decide)

/-- C8 refutation: when no toggle form is present on the page, the preference
stream is the constant `of(true)` and ignores the persisted value — with a
persisted `false` the first (and only) emission is still `true`, so the
signal is not seeded from storage as claimed. -/
theorem c8_counterexample :
    instantPreviewEnabled none (some false) [] = [true]
    ∧ (instantPreviewEnabled none (some false) []).head?
        ≠ some ((some false : Option Bool).getD true) := by
  decide

/-- C8 as amended: when a toggle form is bound, the signal starts with the
persisted value (default `true`), each further `change` event appends
`value == "on"` unless it equals the signal's current value (duplicate
suppression); when no form is bound the signal is the constant `true`
regardless of storage. -/
theorem c8_preference_signal (stored : Option Bool) (evs : List String) (v : String) :
    (instantPreviewEnabled (some ()) stored evs).head? = some (stored.getD true)
    ∧ instantPreviewEnabled (some ()) stored (evs ++ [v]) =
        (if (v == "on") == lastVal (stored.getD true) (evs.map fun w => w == "on")
         then instantPreviewEnabled (some ()) stored evs
         else instantPreviewEnabled (some ()) stored evs ++ [v == "on"])
    ∧ instantPreviewEnabled none stored evs = [true] := by
  refine ⟨?_, ?_, rfl⟩
  · simp [instantPreviewEnabled, distinctUntilChanged]
  · simp only [instantPreviewEnabled, List.map_append, List.map_cons, List.map_nil,
      distinctUntilChanged]
    rw [distinctFrom_append_last]
    by_cases h : ((v == "on") == lastVal (stored.getD true) (evs.map fun w => w == "on")) = true
    · simp [h]
    · simp [h]

/-- C10: on every emission of the preference stream the subscriber writes the
value to the persistent store, mirrors it on the body's instant-preview data
attribute, and checks the toggle input matching the value when present; with
no toggle interaction at all, subscribing still runs the handler once on the
seeded value, so storage is written back even at startup. -/
theorem c10_subscriber (st : HostState) (enabled : Bool) (stored : Option Bool)
    (form : Option Unit) :
    (applyPreference st enabled).storage = some enabled
    ∧ (applyPreference st enabled).bodyInstantPreview
        = some (if enabled then "on" else "off")
    ∧ (enabled = true → st.inputOn.isSome = true →
        (applyPreference st enabled).inputOn = some true)
    ∧ (enabled = false → st.inputOff.isSome = true →
        (applyPreference st enabled).inputOff = some true)
    ∧ subscribeRun st (instantPreviewEnabled form stored []) =
        applyPreference st (match form with | none => true | some _ => stored.getD true) := by
  refine ⟨?_, ?_, ?_, ?_, ?_⟩
  · cases enabled <;> simp [applyPreference]
  · cases enabled <;> simp [applyPreference]
  · intro he hsome
    subst he
    obtain ⟨b, hb⟩ := Option.isSome_iff_exists.mp hsome
    simp [applyPreference, hb]
  · intro he hsome
    subst he
    obtain ⟨b, hb⟩ := Option.isSome_iff_exists.mp hsome
    simp [applyPreference, hb]
  · cases form with
    | none => simp [instantPreviewEnabled, subscribeRun]
    | some u =>
      simp [instantPreviewEnabled, distinctUntilChanged, distinctFrom, subscribeRun]

/-- `nextElements` collects the longest prefix of siblings satisfying the
predicate: the scan terminates at the first sibling failing it. -/
theorem nextElements_eq_takeWhile (p : Elem → Bool) (sibs : List Elem) :
    nextElements sibs p = sibs.takeWhile p := by
  induction sibs with
  | nil => rfl
  | cons el rest ih => by_cases h : p el <;> simp [nextElements, List.takeWhile_cons, h, ih]

/-- Every element collected by `nextElements` satisfies the predicate. -/
theorem mem_nextElements (p : Elem → Bool) (sibs : List Elem) (el : Elem)
    (h : el ∈ nextElements sibs p) : p el = true := by
  rw [nextElements_eq_takeWhile] at h
  exact List.mem_takeWhile_imp h

/-- A heading element is not an anchor element. -/
theorem heading_not_anchor (el : Elem) (h : el.isHeading = true) : el.isAnchor = false := by
  simp only [Elem.isHeading, Bool.or_eq_true, beq_iff_eq] at h
  have hne : el.tag ≠ "a" := by
    rcases h with ((((h | h) | h) | h) | h) | h <;> rw [h] <;> decide
  simp only [Elem.isAnchor, beq_eq_false_iff_ne, ne_eq]
  exact hne

/-- C2 refutation: for a heading target inside a `doc` block whose parent is
followed by a plain paragraph and then a `doc-contents` block (no heading in
between, siblings not exhausted), the scan stops at the paragraph instead of
skipping it: the matching `doc-contents` sibling is not in the result, so
non-matching siblings do terminate the scan. -/
theorem c2_counterexample :
    extract ctxC2 = [mkH3 h2El]
    ∧ docPred contentsEl = true
    ∧ contentsEl ∈ ctxC2.parentSiblings
    ∧ ¬ contentsEl ∈ extract ctxC2
    ∧ (∀ el ∈ ctxC2.parentSiblings, el.isHeading = false) := by
  decide

/-- C2 as amended: in Override 2 the scan over the parent's following
siblings terminates at the first sibling that is not a `doc-contents` or
`doc-signature` block — the result is the longest prefix of matching
siblings (every collected element matches), not the matching siblings of
the whole range. -/
theorem c2_doc_scan (ctx : ExtractCtx)
    (ha : (ctx.headline.isAnchor && (ctx.headline.textContent == "")) = false)
    (hd : (ctx.parent.map fun p => p.classes.contains "doc").getD false = true) :
    extract ctx = mkH3 ctx.headline :: nextElements ctx.siblings defaultPred
        ++ ctx.parentSiblings.takeWhile docPred
    ∧ (∀ el ∈ ctx.parentSiblings.takeWhile docPred, docPred el = true) := by
  refine ⟨?_, fun el h => List.mem_takeWhile_imp h⟩
  cases hpar : ctx.parent with
  | none => rw [hpar] at hd; simp at hd
  | some p =>
    rw [hpar] at hd
    simp at hd
    simp [extract, ha, hpar, hd, nextElements_eq_takeWhile]

/-- Witness for the amended C2 at the concrete `doc` context. -/
theorem c2_doc_scan_witness :
    extract ctxC2 = mkH3 ctxC2.headline :: nextElements ctxC2.siblings defaultPred
        ++ ctxC2.parentSiblings.takeWhile docPred
    ∧ (∀ el ∈ ctxC2.parentSiblings.takeWhile docPred, docPred el = true) :=
  c2_doc_scan ctxC2 (by decide) (by decide)

/-- C7: a heading target immediately followed by another heading-level
element, outside any `doc` block, extracts to exactly the synthesized `h3`;
and whenever extraction yields a single element the pipeline drops the run
(`EMPTY`): the pending fetch is cleared and nothing is mounted. -/
theorem c7_bare_heading_abort (ctx : ExtractCtx) (next : Elem) (rest : List Elem)
    (link : Url) (st : PState) (r : Nat)
    (hH : ctx.headline.isHeading = true)
    (hP : (ctx.parent.map fun p => p.classes.contains "doc").getD false = false)
    (hS : ctx.siblings = next :: rest)
    (hN : next.isHeading = true) :
    extract ctx = [mkH3 ctx.headline]
    ∧ (∀ ctx2 : ExtractCtx, (extract ctx2).length = 1 → st.pending = some r →
        stepP link st (PEvent.fetchDone r (some ctx2)) = ({ st with pending := none }, [])) := by
  constructor
  · have hA : ctx.headline.isAnchor = false := heading_not_anchor _ hH
    have hdp : defaultPred next = false := by simp [defaultPred, hN]
    cases hpar : ctx.parent with
    | none => simp [extract, hA, hpar, hS, nextElements, hdp]
    | some p =>
      rw [hpar] at hP
      simp at hP
      simp [extract, hA, hpar, hP, hS, nextElements, hdp]
  · intro ctx2 hl hp
    simp [stepP, hp, hl]

/-- Witness for C7: a concrete heading-before-heading target aborts. -/
theorem c7_bare_heading_abort_witness :
    extract ctxC7 = [mkH3 ctxC7.headline]
    ∧ stepP linkC1 stWit (PEvent.fetchDone 3 (some ctxC7)) = ({ stWit with pending := none }, []) := by
  have h := c7_bare_heading_abort ctxC7 h2El [] linkC1 stWit 3
    (by decide) (by decide) rfl (by decide)
  exact ⟨h.1, h.2 ctxC7 (by decide) rfl⟩

/-- C9 refutation: for a bare anchor target with empty text whose parent
carries the `doc` marker class, Override 1 applies instead of Override 2:
the parent's following plain paragraph — neither a `doc-contents` nor a
`doc-signature` block — is collected into the result. -/
theorem c9_counterexample :
    (ctxC9.parent.map fun p => p.classes.contains "doc").getD false = true
    ∧ (ctxC9.headline.isAnchor && (ctxC9.headline.textContent == "")) = true
    ∧ extract ctxC9 = [mkH3 aEl, pEl, contentsEl]
    ∧ pEl ∈ extract ctxC9
    ∧ docPred pEl = false := by
  decide

/-- C9 as amended: when the target's parent carries the `doc` marker class,
Override 2 (the `doc-contents`/`doc-signature` restriction) applies only if
the target is not a bare anchor with empty text; for a bare empty anchor,
Override 1 takes precedence and the parent's siblings are collected under
the default (stop at heading or `doc`) predicate instead. -/
theorem c9_override_precedence (ctx : ExtractCtx)
    (hd : (ctx.parent.map fun p => p.classes.contains "doc").getD false = true) :
    ((ctx.headline.isAnchor && (ctx.headline.textContent == "")) = true →
      extract ctx = mkH3 ctx.headline :: nextElements ctx.siblings defaultPred
        ++ nextElements ctx.parentSiblings defaultPred)
    ∧ ((ctx.headline.isAnchor && (ctx.headline.textContent == "")) = false →
      extract ctx = mkH3 ctx.headline :: nextElements ctx.siblings defaultPred
        ++ nextElements ctx.parentSiblings docPred
      ∧ ∀ el ∈ nextElements ctx.parentSiblings docPred, docPred el = true) := by
  constructor
  · intro ha
    simp [extract, ha]
  · intro ha
    refine ⟨?_, fun el h => mem_nextElements _ _ _ h⟩
    cases hpar : ctx.parent with
    | none => rw [hpar] at hd; simp at hd
    | some p =>
      rw [hpar] at hd
      simp at hd
      simp [extract, ha, hpar, hd]

/-- Witness for the amended C9 at the concrete bare-anchor context. -/
theorem c9_override_precedence_witness :
    extract ctxC9 = mkH3 ctxC9.headline :: nextElements ctxC9.siblings defaultPred
      ++ nextElements ctxC9.parentSiblings defaultPred :=
  (c9_override_precedence ctxC9 (by decide)).1 (by decide)

/-- Witness for C10 at concrete inputs. -/
theorem c10_subscriber_witness :
    (applyPreference hostW true).storage = some true
    ∧ (applyPreference hostW true).bodyInstantPreview = some (if true then "on" else "off")
    ∧ (applyPreference hostW true).inputOn = some true
    ∧ subscribeRun hostW (instantPreviewEnabled (some ()) (some false) []) =
        applyPreference hostW ((some false : Option Bool).getD true) := by
  have h := c10_subscriber hostW true (some false) (some ())
  exact ⟨h.1, h.2.1, h.2.2.1 rfl rfl, h.2.2.2.2⟩

/-- The attribute rewrite of `setAttr` commutes with attribute lookup:
looking any key up in the rewritten list finds the rewritten binding of the
key found in the original list. -/
theorem find_setAttr (k k2 x : String) (attrs : List (String × String)) :
    (attrs.map fun kv => if kv.1 == k then (kv.1, x) else kv).find?
        (fun kv => kv.1 == k2)
      = (attrs.find? fun kv => kv.1 == k2).map
          fun kv => if kv.1 == k then (kv.1, x) else kv := by
  induction attrs with
  | nil => rfl
  | cons kv rest ih =>
    have hfst : (if kv.1 == k then (kv.1, x) else kv).1 = kv.1 := by
      by_cases hk : kv.1 == k <;> simp [hk]
    have hcond : ((if kv.1 == k then (kv.1, x) else kv).1 == k2) = (kv.1 == k2) := by
      rw [hfst]
    rw [List.map_cons, List.find?_cons, List.find?_cons, hcond]
    cases hp : (kv.1 == k2) with
    | false => simpa using ih
    | true => rfl

/-- Setting one attribute key leaves the others untouched. -/
theorem getAttr_setAttr_ne (el : RElem) (k k2 x : String) (h : k2 ≠ k) :
    getAttr (setAttr el k x) k2 = getAttr el k2 := by
  obtain ⟨attrs⟩ := el
  simp only [getAttr, setAttr, find_setAttr]
  cases hf : attrs.find? fun kv => kv.1 == k2 with
  | none => rfl
  | some kv =>
    have hkv : (kv.1 == k2) = true := by simpa using List.find?_some hf
    have hk : kv.1 ≠ k := by
      rw [beq_iff_eq.mp hkv]
      exact h
    simp [hk]

/-- Setting an attribute key that is present replaces its value. -/
theorem getAttr_setAttr_self (el : RElem) (k v x : String)
    (h : getAttr el k = some v) :
    getAttr (setAttr el k x) k = some x := by
  obtain ⟨attrs⟩ := el
  simp only [getAttr] at h
  obtain ⟨kv, hf, hv2⟩ := Option.map_eq_some'.mp h
  have hkv : kv.1 = k := by simpa using List.find?_some hf
  simp only [getAttr, setAttr, find_setAttr, hf, Option.map_some']
  simp [hkv]

/-- The identifier pass leaves keys it does not process untouched. -/
theorem suffixKeys_getAttr_notmem (s : Nat) (keys : List String) :
    ∀ (el : RElem) (k : String), k ∉ keys →
      getAttr (suffixKeys s keys el) k = getAttr el k := by
  induction keys with
  | nil => intro el k _; rfl
  | cons key rest ih =>
    intro el k h
    have hk : k ≠ key := fun e => h (e ▸ List.mem_cons_self key rest)
    have hr : k ∉ rest := fun e => h (List.mem_cons_of_mem key e)
    cases hv : getAttr el key with
    | none => simp only [suffixKeys, hv]; exact ih el k hr
    | some w =>
      by_cases hw : (w != "") = true
      · simp only [suffixKeys, hv, hw, if_true]
        rw [ih _ k hr]
        exact getAttr_setAttr_ne el key k _ hk
      · simp only [suffixKeys, hv, hw, if_false]
        exact ih el k hr

/-- Each key processed by the identifier pass, when present with a nonempty
value, receives exactly the `$preview_<sequence>` suffix of the current
counter value — one shared counter value for all keys of the call. -/
theorem suffixKeys_getAttr_mem (s : Nat) (keys : List String) :
    ∀ (el : RElem) (k v : String), keys.Nodup → k ∈ keys →
      getAttr el k = some v → v ≠ "" →
      getAttr (suffixKeys s keys el) k = some (v ++ previewSuffix s) := by
  induction keys with
  | nil => intro el k v _ hmem; cases hmem
  | cons key rest ih =>
    intro el k v hnd hmem hv hne
    by_cases hk : k = key
    · subst hk
      have hrest : k ∉ rest := (List.nodup_cons.mp hnd).1
      have hvb : (v != "") = true := bne_iff_ne.mpr hne
      simp only [suffixKeys, hv, hvb, if_true]
      rw [suffixKeys_getAttr_notmem s rest _ k hrest]
      exact getAttr_setAttr_self el k v _ hv
    · have hmem2 : k ∈ rest := by
        cases hmem with
        | head => exact absurd rfl hk
        | tail _ hmem2 => exact hmem2
      have hnd2 : rest.Nodup := (List.nodup_cons.mp hnd).2
      cases hv2 : getAttr el key with
      | none => simp only [suffixKeys, hv2]; exact ih el k v hnd2 hmem2 hv hne
      | some w =>
        by_cases hw : (w != "") = true
        · simp only [suffixKeys, hv2, hw, if_true]
          refine ih _ k v hnd2 hmem2 ?_ hne
          rw [getAttr_setAttr_ne el key k _ hk]
          exact hv
        · simp only [suffixKeys, hv2, hw, if_false]
          exact ih el k v hnd2 hmem2 hv hne

/-- The counter after a sequence of resolutions has advanced by their
number. -/
theorem resolveSeq_counter (res : String → String) (docs : List (List RElem)) :
    ∀ s : Nat, (resolveSeq res docs s).2 = s + docs.length := by
  induction docs with
  | nil => intro s; simp [resolveSeq]
  | cons d ds ih => intro s; simp [resolveSeq, resolve, ih]; omega

/-- Digit characters determine their digits below base ten. -/
theorem digitChar_inj (a b : Nat) (ha : a < 10) (hb : b < 10)
    (h : digitChar a = digitChar b) : a = b := by
  interval_cases a <;> interval_cases b <;> revert h <;> decide

/-- Mapping `digitChar` over digit lists below base ten is injective. -/
theorem map_digitChar_inj (l1 : List Nat) :
    ∀ l2 : List Nat, (∀ d ∈ l1, d < 10) → (∀ d ∈ l2, d < 10) →
      l1.map digitChar = l2.map digitChar → l1 = l2 := by
  induction l1 with
  | nil =>
    intro l2 _ _ h
    cases l2 with
    | nil => rfl
    | cons b t => simp at h
  | cons a t1 ih =>
    intro l2 h1 h2 h
    cases l2 with
    | nil => simp at h
    | cons b t2 =>
      simp only [List.map_cons, List.cons.injEq] at h
      have ha : a = b :=
        digitChar_inj a b (h1 a (List.mem_cons_self a t1))
          (h2 b (List.mem_cons_self b t2)) h.1
      have ht : t1 = t2 :=
        ih t2 (fun d hd => h1 d (List.mem_cons_of_mem a hd))
          (fun d hd => h2 d (List.mem_cons_of_mem b hd)) h.2
      rw [ha, ht]

/-- A positive number's decimal string is never `"0"`. -/
theorem decimal_succ_ne_zero_str (n : Nat) : decimal (n + 1) ≠ "0" := by
  intro h
  have hd := congrArg String.data h
  simp only [decimal] at hd
  have hrev := congrArg List.reverse hd
  simp only [List.reverse_reverse] at hrev
  have : Nat.digits 10 (n + 1) = [0] := by
    refine map_digitChar_inj _ [0] ?_ ?_ ?_
    · intro d hd2
      exact Nat.digits_lt_base (by norm_num) hd2
    · intro d hd2
      simp at hd2
      omega
    · simpa using hrev
  have hof := Nat.ofDigits_digits 10 (n + 1)
  rw [this] at hof
  simp [Nat.ofDigits] at hof

/-- The modelled decimal representation is injective. -/
theorem decimal_inj (m n : Nat) (h : decimal m = decimal n) : m = n := by
  match m, n with
  | 0, 0 => rfl
  | 0, Nat.succ n => exact absurd h.symm (decimal_succ_ne_zero_str n)
  | Nat.succ m, 0 => exact absurd h (decimal_succ_ne_zero_str m)
  | Nat.succ m, Nat.succ n =>
    have hd := congrArg String.data h
    simp only [decimal] at hd
    have hrev := congrArg List.reverse hd
    simp only [List.reverse_reverse] at hrev
    have hdig : Nat.digits 10 (m + 1) = Nat.digits 10 (n + 1) := by
      refine map_digitChar_inj _ _ ?_ ?_ hrev
      · intro d hd2
        exact Nat.digits_lt_base (by norm_num) hd2
      · intro d hd2
        exact Nat.digits_lt_base (by norm_num) hd2
    have hof1 := Nat.ofDigits_digits 10 (m + 1)
    have hof2 := Nat.ofDigits_digits 10 (n + 1)
    rw [hdig] at hof1
    rw [hof2] at hof1
    omega

/-- Distinct counter values produce distinct `$preview_<N>` suffixes. -/
theorem previewSuffix_inj (m n : Nat) (h : m ≠ n) : previewSuffix m ≠ previewSuffix n := by
  intro he
  apply h
  apply decimal_inj
  have hd := congrArg String.data he
  simp only [previewSuffix, String.data_append] at hd
  have := List.append_cancel_left hd
  exact congrArg String.mk this

/-- The `$preview_<N>` suffix is never empty. -/
theorem previewSuffix_ne_empty (s : Nat) : previewSuffix s ≠ "" := by
  intro h
  have hd := congrArg String.data h
  simp [previewSuffix, String.data_append] at hd

/-- C3 refutation: on an element carrying both a relative `href` and a
relative `src`, the per-element `break` after the first rewrite leaves the
relative `src` unrewritten — so not every relative `href`/`src` attribute is
resolved against the base, contradicting the claim's universal clause. -/
theorem c3_counterexample :
    (resolve cres [elC3] 0).1
      = [{ attrs := [("href", "https://example.com/a"), ("src", "b")] }]
    ∧ isAbsoluteUrl "b" = false
    ∧ cres "b" ≠ "b" := by
  refine ⟨by decide, by decide, by decide⟩

/-- C3 as amended: per element, only the first of `href`, `src` (in that
order) whose value is nonempty and not already absolute is rewritten to its
resolution against the base; the other attribute is left exactly as it was
(even if relative), and an element with no rewritable attribute is
unchanged. -/
theorem c3_first_match (res : String → String) (el : RElem) :
    (∀ v, getAttr el "href" = some v → (v != "" && !isAbsoluteUrl v) = true →
      rewriteKeys res ["href", "src"] el = setAttr el "href" (res v)
      ∧ getAttr (rewriteKeys res ["href", "src"] el) "src" = getAttr el "src")
    ∧ (∀ v w, getAttr el "href" = some v → (v != "" && !isAbsoluteUrl v) = false →
      getAttr el "src" = some w → (w != "" && !isAbsoluteUrl w) = true →
      rewriteKeys res ["href", "src"] el = setAttr el "src" (res w)
      ∧ getAttr (rewriteKeys res ["href", "src"] el) "href" = some v)
    ∧ (getAttr el "href" = none → ∀ w, getAttr el "src" = some w →
        (w != "" && !isAbsoluteUrl w) = true →
      rewriteKeys res ["href", "src"] el = setAttr el "src" (res w))
    ∧ (∀ v w, getAttr el "href" = some v → (v != "" && !isAbsoluteUrl v) = false →
      getAttr el "src" = some w → (w != "" && !isAbsoluteUrl w) = false →
      rewriteKeys res ["href", "src"] el = el) := by
  refine ⟨?_, ?_, ?_, ?_⟩
  · intro v hv hc
    have he : rewriteKeys res ["href", "src"] el = setAttr el "href" (res v) := by
      simp only [rewriteKeys, hv, hc, if_true]
    refine ⟨he, ?_⟩
    rw [he]
    exact getAttr_setAttr_ne el "href" "src" (res v) (by decide)
  · intro v w hv hc hw hcw
    have he : rewriteKeys res ["href", "src"] el = setAttr el "src" (res w) := by
      simp [rewriteKeys, hv, hc, hw, hcw]
    refine ⟨he, ?_⟩
    rw [he]
    rw [getAttr_setAttr_ne el "src" "href" (res w) (by decide)]
    exact hv
  · intro hv w hw hcw
    simp only [rewriteKeys, hv, hw, hcw, if_true]
  · intro v w hv hc hw hcw
    simp [rewriteKeys, hv, hc, hw, hcw]

/-- Witness for the amended C3: on the double-relative element, `href` is
rewritten and `src` is untouched. -/
theorem c3_first_match_witness :
    rewriteKeys cres ["href", "src"] elC3 = setAttr elC3 "href" (cres "a")
    ∧ getAttr (rewriteKeys cres ["href", "src"] elC3) "src" = getAttr elC3 "src" :=
  (c3_first_match cres elC3).1 "a" rfl (by decide)

/-- C4: each call to `resolve` advances the global sequence counter by
exactly one, after the rewrites (every identifier suffixed in the call
carries the pre-increment counter value, the same for all of its keys);
N successive resolutions advance the counter by N, consecutive counter
values yield distinct (nonempty) suffix strings, and resolving a document
twice stacks two suffixes with distinct counter values onto a rewritten
identifier — identifier suffixing is not idempotent. -/
theorem c4_sequence_counter (res : String → String) (doc : List RElem) (s : Nat)
    (el : RElem) (k v : String) (docs : List (List RElem)) (m n : Nat) :
    (resolve res doc s).2 = s + 1
    ∧ (k ∈ ["id", "for", "name"] → getAttr el k = some v → v ≠ "" →
        getAttr (suffixKeys s ["id", "for", "name"] el) k = some (v ++ previewSuffix s))
    ∧ (resolveSeq res docs s).2 = s + docs.length
    ∧ (m ≠ n → previewSuffix m ≠ previewSuffix n)
    ∧ previewSuffix s ≠ ""
    ∧ (v ≠ "" →
        (resolve res (resolve res [{ attrs := [("for", v)] }] s).1
            (resolve res [{ attrs := [("for", v)] }] s).2).1
          = [{ attrs := [("for", (v ++ previewSuffix s) ++ previewSuffix (s + 1))] }]) := by
  refine ⟨rfl, ?_, resolveSeq_counter res docs s, previewSuffix_inj m n,
    previewSuffix_ne_empty s, ?_⟩
  · intro hmem hv hne
    exact suffixKeys_getAttr_mem s ["id", "for", "name"] el k v (by decide) hmem hv hne
  · intro hv
    have hvs : v ++ previewSuffix s ≠ "" := by
      intro h
      have hd := congrArg String.data h
      rw [String.data_append] at hd
      rcases List.append_eq_nil.mp hd with ⟨h1, h2⟩
      exact previewSuffix_ne_empty s (congrArg String.mk h2)
    simp [resolve, hasAttr, idSelector, getAttr, setAttr, suffixKeys,
      List.find?, hv, hvs]

/-- A fired `zip` pair either starts a fresh fetch (sitemap hit) or does
nothing (sitemap miss). -/
theorem firePair_cases (link : Url) (s : List String) (st : PState) :
    firePair link s st
        = ({ st with pending := some st.nextRun, nextRun := st.nextRun + 1 },
           [PAction.fetchStart st.nextRun])
    ∨ firePair link s st = (st, []) := by
  unfold firePair
  by_cases h : (s.contains (Url.toStr (Url.clearSearchHash link))) = true
  · left; rw [if_pos h]
  · right; rw [if_neg h]

/-- `applyActs` distributes over action-list concatenation. -/
theorem applyActs_append (l1 l2 : List PAction) :
    ∀ cur : Option Nat,
      applyActs cur (l1 ++ l2) = (applyActs cur l1).bind fun c => applyActs c l2 := by
  induction l1 with
  | nil => intro cur; rfl
  | cons a rest ih =>
    intro cur
    cases a with
    | fetchStart r => simpa [applyActs] using ih cur
    | mountNode r =>
      cases cur with
      | none => simpa [applyActs] using ih (some r)
      | some m => simp [applyActs]
    | unmountNode r =>
      cases cur with
      | none => simp [applyActs]
      | some m =>
        by_cases h : (m == r) = true
        · simpa [applyActs, h] using ih none
        · simp [applyActs, h]

/-- Every pipeline step emits a well-formed action list: replaying it from
the step's entry overlay yields exactly the step's exit overlay (in
particular a step never mounts over a live overlay and never removes a node
other than the live one). -/
theorem stepP_mounted_ok (link : Url) (st : PState) (e : PEvent) :
    applyActs st.mounted (stepP link st e).2 = some (stepP link st e).1.mounted := by
  cases e with
  | activate =>
    cases hq : st.smQueue with
    | nil => simp [stepP, hq, applyActs]
    | cons s rest =>
      simp only [stepP, hq]
      rcases firePair_cases link s { st with smQueue := rest } with h | h <;>
        rw [h] <;> simp [applyActs]
  | deactivate => simp [stepP, applyActs]
  | smEmit s =>
    cases hq : st.actQueue with
    | zero => simp [stepP, hq, applyActs]
    | succ k =>
      simp only [stepP, hq]
      rcases firePair_cases link s { st with actQueue := k } with h | h <;>
        rw [h] <;> simp [applyActs]
  | fetchDone r t =>
    by_cases hp : st.pending = some r
    · cases t with
      | none => simp [stepP, hp, applyActs]
      | some ctx =>
        by_cases hl : (extract ctx).length = 1
        · simp [stepP, hp, hl, applyActs]
        · cases hm : st.mounted with
          | none => simp [stepP, hp, hl, hm, applyActs]
          | some m => simp [stepP, hp, hl, hm, applyActs]
    · simp [stepP, hp, applyActs]

/-- Replaying the whole action trace of a run from its initial overlay state
yields its final overlay state: the action trace is well-formed. -/
theorem runP_mounted_ok (link : Url) (es : List PEvent) :
    ∀ st : PState,
      applyActs st.mounted (runP link st es).2 = some (runP link st es).1.mounted := by
  induction es with
  | nil => intro st; rfl
  | cons e rest ih =>
    intro st
    simp only [runP]
    rw [applyActs_append, stepP_mounted_ok]
    simpa using ih (stepP link st e).1

/-- A single step never mounts a superseded run `r` (one that is no longer
the pending fetch while the counter has moved past it), and preserves that
supersession. -/
theorem stepP_superseded (link : Url) (st : PState) (e : PEvent) (r : Nat)
    (hp : st.pending ≠ some r) (hn : r < st.nextRun) :
    PAction.mountNode r ∉ (stepP link st e).2
    ∧ (stepP link st e).1.pending ≠ some r
    ∧ r < (stepP link st e).1.nextRun := by
  cases e with
  | activate =>
    cases hq : st.smQueue with
    | nil => simp [stepP, hq]; exact ⟨hp, hn⟩
    | cons s rest =>
      simp only [stepP, hq]
      rcases firePair_cases link s { st with smQueue := rest } with h | h <;> rw [h]
      · refine ⟨by simp, by simp; omega, by simp; omega⟩
      · simpa using ⟨hp, hn⟩
  | deactivate => simpa [stepP] using ⟨hp, hn⟩
  | smEmit s =>
    cases hq : st.actQueue with
    | zero => simp [stepP, hq]; exact ⟨hp, hn⟩
    | succ k =>
      simp only [stepP, hq]
      rcases firePair_cases link s { st with actQueue := k } with h | h <;> rw [h]
      · refine ⟨by simp, by simp; omega, by simp; omega⟩
      · simpa using ⟨hp, hn⟩
  | fetchDone run t =>
    by_cases hp2 : st.pending = some run
    · have hrr : run ≠ r := by
        intro e
        exact hp (e ▸ hp2)
      cases t with
      | none => simp [stepP, hp2]; exact hn
      | some ctx =>
        by_cases hl : (extract ctx).length = 1
        · simp [stepP, hp2, hl]; exact hn
        · cases hm : st.mounted with
          | none =>
            simp [stepP, hp2, hl, hm]
            exact ⟨fun e => hrr e.symm, hn⟩
          | some m =>
            simp [stepP, hp2, hl, hm]
            exact ⟨fun e => hrr e.symm, hn⟩
    · simpa [stepP, hp2] using ⟨hp, hn⟩

/-- Along any event trace, a superseded run is never mounted and stays
superseded. -/
theorem runP_superseded (link : Url) (es : List PEvent) :
    ∀ (st : PState) (r : Nat), st.pending ≠ some r → r < st.nextRun →
      PAction.mountNode r ∉ (runP link st es).2
      ∧ (runP link st es).1.pending ≠ some r
      ∧ r < (runP link st es).1.nextRun := by
  induction es with
  | nil => intro st r hp hn; simpa [runP] using ⟨hp, hn⟩
  | cons e rest ih =>
    intro st r hp hn
    obtain ⟨h1, h2, h3⟩ := stepP_superseded link st e r hp hn
    obtain ⟨g1, g2, g3⟩ := ih (stepP link st e).1 r h2 h3
    refine ⟨?_, g2, g3⟩
    intro hmem
    simp only [runP, List.mem_append] at hmem
    rcases hmem with h | h
    · exact h1 h
    · exact g1 h

/-- Witness for C4 at concrete inputs. -/
theorem c4_sequence_counter_witness :
    (resolve cres [elC3] 5).2 = 5 + 1
    ∧ getAttr (suffixKeys 5 ["id", "for", "name"] { attrs := [("for", "v")] }) "for"
        = some ("v" ++ previewSuffix 5)
    ∧ (resolveSeq cres [[elC3], [elC3]] 5).2 = 5 + ([[elC3], [elC3]] : List (List RElem)).length
    ∧ previewSuffix 5 ≠ previewSuffix 6
    ∧ previewSuffix 5 ≠ ""
    ∧ (resolve cres (resolve cres [{ attrs := [("for", "v")] }] 5).1
          (resolve cres [{ attrs := [("for", "v")] }] 5).2).1
        = [{ attrs := [("for", ("v" ++ previewSuffix 5) ++ previewSuffix 6)] }] := by
  have h := c4_sequence_counter cres [elC3] 5 { attrs := [("for", "v")] } "for" "v"
    [[elC3], [elC3]] 5 6
  exact ⟨h.1, h.2.1 (by decide) rfl (by decide), h.2.2.1,
    h.2.2.2.1 (by decide), h.2.2.2.2.1, h.2.2.2.2.2 (by decide)⟩

/-- C1 refutation: in the concrete trace the fetch for run 0 is pending
after the first two events, the third event deactivates the link, and the
fetch completes afterwards — yet the pipeline still mounts the overlay of
run 0 (and never removes it).  Deactivation events are filtered out by
`filter(active => active)` before the pipeline, so deactivating a link while
its fetch is pending does not prevent the mount. -/
theorem c1_counterexample :
    (runP linkC1 initP (traceC1.take 2)).1.pending = some 0
    ∧ traceC1.get? 2 = some PEvent.deactivate
    ∧ (runP linkC1 initP traceC1).2 = [PAction.fetchStart 0, PAction.mountNode 0]
    ∧ (runP linkC1 initP traceC1).1.mounted = some 0 := by
  refine ⟨by decide, by decide, by decide, by decide⟩

/-- C1 as amended: pipeline runs are initiated by paired sitemap emissions
and gate activations; a new run supersedes the pending fetch, and a
superseded run never mounts.  The action trace of any run is well-formed: at
most one overlay is live at any instant, and a previously mounted overlay is
removed before a new one is inserted.  Deactivation, however, is a no-op for
this pipeline (deactivations are filtered out before it), so it cancels
nothing here — hiding on deactivation is delegated to the tooltip
collaborator. -/
theorem c1_pipeline_cancellation (link : Url) (es : List PEvent) (st : PState)
    (r : Nat) (t : Option ExtractCtx) :
    applyActs none (runP link initP es).2 = some (runP link initP es).1.mounted
    ∧ stepP link st PEvent.deactivate = (st, [])
    ∧ (st.pending ≠ some r → stepP link st (PEvent.fetchDone r t) = (st, []))
    ∧ (st.pending ≠ some r → r < st.nextRun →
        PAction.mountNode r ∉ (runP link st es).2) := by
  refine ⟨?_, rfl, ?_, ?_⟩
  · simpa [initP] using runP_mounted_ok link es initP
  · intro hp
    simp [stepP, hp]
  · intro hp hn
    exact (runP_superseded link es st r hp hn).1

/-- Witness for the amended C1 at concrete inputs. -/
theorem c1_pipeline_cancellation_witness :
    applyActs none (runP linkC1 initP traceC1).2 = some (runP linkC1 initP traceC1).1.mounted
    ∧ stepP linkC1 stWit PEvent.deactivate = (stWit, [])
    ∧ stepP linkC1 stWit (PEvent.fetchDone 0 none) = (stWit, [])
    ∧ PAction.mountNode 0 ∉ (runP linkC1 stWit traceC1).2 := by
  have h := c1_pipeline_cancellation linkC1 traceC1 stWit 0 none
  exact ⟨h.1, h.2.1, h.2.2.1 (by decide), h.2.2.2 (by decide) (by decide)⟩

end LinkPreview
